import Mathlib

/-!
# Verification of the subtitle segment grouper (`src/transcriber.py`)

Shallow embedding of `AudioTranscriber.process_transcription` and its two
helpers `_process_segment_with_words` and `_process_segment_without_words`.

Modelling choices:
* A Python `str` is a `List Char` (`Str` below); `str.strip()` is `strip`,
  which drops leading and trailing whitespace characters.
* Time values (Python floats fed to `timedelta(seconds=...)`) are modelled as
  exact rationals `ℚ`; the grouper only copies them, it never computes with
  them, so the embedding is faithful.
* A dict field that may be absent is an `Option`: `word_info["start"]` is a
  fallible access (raising `KeyError` in Python), modelled by `Except String`;
  `word_info.get("text", "")` is `Option.getD` with the default.
* The presence of the `"words"` key in a segment dict is `Segment.words`
  being `some _` (even `some []`).
* `srt.Subtitle(index=..., start=..., end=..., content=...)` is the
  `Subtitle` structure; `timedelta(seconds=x)` is represented by `x : ℚ`
  itself.  `timedelta(seconds=None)` raises `TypeError` in Python, modelled
  as an `Except.error`.
-/

/-- A Python string, as its sequence of characters. -/
abbrev Str := List Char

/-- Python `str.strip()`: drop leading and trailing whitespace. -/
def strip (s : Str) : Str :=
  ((s.dropWhile Char.isWhitespace).reverse.dropWhile Char.isWhitespace).reverse

/-- A word dict from the transcription result: `{"text": ..., "start": ...,
"end": ...}`.  Each field may be absent.  `stop` models the `"end"` key
(`end` is a Lean keyword). -/
structure Word where
  text : Option Str
  start : Option ℚ
  stop : Option ℚ
deriving DecidableEq, Repr

/-- A segment dict from the transcription result.  `words` is `some ws` iff
the `"words"` key is present; `start`/`stop`/`text` model the `"start"`,
`"end"` and `"text"` keys, each possibly absent. -/
structure Segment where
  words : Option (List Word)
  start : Option ℚ
  stop : Option ℚ
  text : Option Str
deriving DecidableEq, Repr

/-- The transcription result dict; `segments` is `some _` iff the
`"segments"` key is present (`result.get("segments", [])` defaults to `[]`). -/
structure TranscriptionResult where
  segments : Option (List Segment)
deriving DecidableEq, Repr

/-- An `srt.Subtitle` object: index, start and end times (seconds), and
content text. -/
structure Subtitle where
  index : Nat
  start : ℚ
  stop : ℚ
  content : Str
deriving DecidableEq, Repr

/-- The mutable state of the accumulation loop in
`_process_segment_with_words`: the blocks emitted so far, the accumulated
text, the recorded block start/end times (`None` when unset), and the running
index. -/
structure LoopState where
  subtitles : List Subtitle
  accumulated_text : Str
  start_time : Option ℚ
  end_time : Option ℚ
  index : Nat
deriving DecidableEq, Repr

/-- `word_info.get("text", "").strip()` (line 67). -/
def trimmed (word_info : Word) : Str := strip (word_info.text.getD [])

/-- The accumulator after appending `text`: the
`f"{accumulated_text} {text}" if accumulated_text else text` assignment
(line 75). -/
def newAcc (st : LoopState) (text : Str) : Str :=
  if st.accumulated_text ≠ [] then st.accumulated_text ++ ' ' :: text else text

/-- The tail of the loop body of `_process_segment_with_words` (lines 74-92),
once the word's trimmed `text` is known non-empty and `start_time` has been
resolved: append the text (space separated), record the end time
(`word_info["end"]`, `KeyError` if absent), and flush a block once
`min_chars` characters have accumulated (`timedelta(seconds=None)` raises
`TypeError` if `start_time` is still unset at the flush). -/
def accumulateWord (min_chars : Nat) (st : LoopState) (word_info : Word)
    (text : Str) (start_time : Option ℚ) : Except String LoopState :=
  match word_info.stop with
  | none => Except.error "KeyError: end"
  | some e =>
      if (newAcc st text).length ≥ min_chars then
        match start_time with
        | some s =>
            Except.ok ⟨st.subtitles ++
                [⟨st.index, s, e, newAcc st text⟩], [], none, none, st.index + 1⟩
        | none => Except.error "TypeError: timedelta seconds is None"
      else Except.ok ⟨st.subtitles, newAcc st text, start_time, some e, st.index⟩

/-- One iteration of the `for word_info in segment["words"]` loop body
(`src/transcriber.py` lines 66-92).  Trims the word's text
(`word_info.get("text", "").strip()`), skips the word if the result is
empty, records `start_time = word_info["start"]` when the accumulator is
empty (`KeyError` if absent), then continues with `accumulateWord`. -/
def stepWord (min_chars : Nat) (st : LoopState) (word_info : Word) :
    Except String LoopState :=
  if trimmed word_info = [] then Except.ok st
  else if st.accumulated_text = [] then
    match word_info.start with
    | none => Except.error "KeyError: start"
    | some s => accumulateWord min_chars st word_info (trimmed word_info) (some s)
  else accumulateWord min_chars st word_info (trimmed word_info) st.start_time

/-- The accumulation loop of `_process_segment_with_words`, folded over the
word list. -/
def processWords (min_chars : Nat) : List Word → LoopState → Except String LoopState
  | [], st => Except.ok st
  | w :: ws, st =>
    match stepWord min_chars st w with
    | Except.error e => Except.error e
    | Except.ok st' => processWords min_chars ws st'

/-- `AudioTranscriber._process_segment_with_words` (lines 52-101): run the
accumulation loop, then emit a trailing block if text remains, defaulting
unset times to zero duration. -/
def process_segment_with_words (min_chars : Nat) (segment : Segment)
    (start_index : Nat) : Except String (List Subtitle × Nat) :=
  match segment.words with
  | none => Except.error "KeyError: words"
  | some words =>
    match processWords min_chars words ⟨[], [], none, none, start_index⟩ with
    | Except.error e => Except.error e
    | Except.ok st =>
        if st.accumulated_text ≠ [] then
          Except.ok (st.subtitles ++
              [⟨st.index, st.start_time.getD 0, st.end_time.getD 0,
                st.accumulated_text⟩], st.index + 1)
        else Except.ok (st.subtitles, st.index)

/-- `AudioTranscriber._process_segment_without_words` (lines 103-114): one
block from the segment's own `"start"`/`"end"`/`"text"` fields, content
trimmed. -/
def process_segment_without_words (segment : Segment) (index : Nat) :
    Except String Subtitle :=
  match segment.start with
  | none => Except.error "KeyError: start"
  | some s =>
    match segment.stop with
    | none => Except.error "KeyError: end"
    | some e => Except.ok ⟨index, s, e, strip (segment.text.getD [])⟩

/-- The `for segment in result.get("segments", [])` loop of
`process_transcription` (lines 36-50), threading the subtitle list and the
running index. -/
def processSegments (min_chars : Nat) :
    List Segment → List Subtitle → Nat → Except String (List Subtitle)
  | [], subtitles, _ => Except.ok subtitles
  | segment :: rest, subtitles, index =>
    if segment.words.isSome then
      match process_segment_with_words min_chars segment index with
      | Except.error e => Except.error e
      | Except.ok (segment_subtitles, index') =>
          processSegments min_chars rest (subtitles ++ segment_subtitles) index'
    else
      match process_segment_without_words segment index with
      | Except.error e => Except.error e
      | Except.ok subtitle =>
          processSegments min_chars rest (subtitles ++ [subtitle]) (index + 1)

/-- `AudioTranscriber.process_transcription` (lines 29-50). -/
def process_transcription (min_chars : Nat) (result : TranscriptionResult) :
    Except String (List Subtitle) :=
  processSegments min_chars (result.segments.getD []) [] 1

/-!
## Whitespace normalization

`tokens` splits a string into its maximal whitespace-free runs; two strings
are equal "modulo whitespace normalization" iff their token lists agree.
-/

/-- Tail of `tokens`: `acc` holds the current (reversed) in-progress token. -/
def tokensAux : Str → Str → List Str
  | [], acc => if acc = [] then [] else [acc.reverse]
  | c :: cs, acc =>
    if c.isWhitespace then
      if acc = [] then tokensAux cs [] else acc.reverse :: tokensAux cs []
    else tokensAux cs (c :: acc)

/-- The maximal whitespace-free runs of a string, in order. -/
def tokens (s : Str) : List Str := tokensAux s []

/-- Join a list of strings with single spaces. -/
def joinSp : List Str → Str
  | [] => []
  | [s] => s
  | s :: ss => s ++ ' ' :: joinSp ss

theorem tokensAux_all_ws {t : Str} (ht : ∀ c ∈ t, c.isWhitespace) (acc : Str) :
    tokensAux t acc = if acc = [] then [] else [acc.reverse] := by
  induction t generalizing acc with
  | nil => rfl
  | cons c cs ih =>
    have hc : c.isWhitespace := ht c (List.mem_cons_self c cs)
    have hcs : ∀ x ∈ cs, x.isWhitespace := fun x hx => ht x (List.mem_cons_of_mem c hx)
    by_cases hacc : acc = []
    · simp [tokensAux, hc, hacc, ih hcs]
    · simp [tokensAux, hc, hacc, ih hcs]

theorem tokensAux_append_ws {c : Char} (hc : c.isWhitespace) (a b : Str) :
    ∀ acc, tokensAux (a ++ c :: b) acc = tokensAux a acc ++ tokens b := by
  induction a with
  | nil =>
    intro acc
    by_cases hacc : acc = [] <;> simp [tokensAux, tokens, hc, hacc]
  | cons x xs ih =>
    intro acc
    by_cases hx : x.isWhitespace
    · by_cases hacc : acc = [] <;> simp [tokensAux, hx, hacc, ih]
    · simp [tokensAux, hx, ih]

theorem tokens_append_space (a b : Str) :
    tokens (a ++ ' ' :: b) = tokens a ++ tokens b :=
  tokensAux_append_ws (by decide) a b []

theorem tokensAux_append_trailing_ws {t : Str} (ht : ∀ c ∈ t, c.isWhitespace)
    (a : Str) : ∀ acc, tokensAux (a ++ t) acc = tokensAux a acc := by
  induction a with
  | nil =>
    intro acc
    simpa [tokensAux] using tokensAux_all_ws ht acc
  | cons x xs ih =>
    intro acc
    by_cases hx : x.isWhitespace
    · by_cases hacc : acc = [] <;> simp [tokensAux, hx, hacc, ih]
    · simp [tokensAux, hx, ih]

theorem tokens_dropWhile_ws (s : Str) :
    tokens (s.dropWhile Char.isWhitespace) = tokens s := by
  induction s with
  | nil => rfl
  | cons c cs ih =>
    by_cases hc : c.isWhitespace
    · simpa [List.dropWhile_cons, hc, tokens, tokensAux] using ih
    · simp [List.dropWhile_cons, hc]

theorem tokens_strip (s : Str) : tokens (strip s) = tokens s := by
  unfold strip
  set u := s.dropWhile Char.isWhitespace with hu
  have h1 : tokens u = tokens s := tokens_dropWhile_ws s
  have hsplit : u.reverse.takeWhile Char.isWhitespace ++
      u.reverse.dropWhile Char.isWhitespace = u.reverse :=
    List.takeWhile_append_dropWhile Char.isWhitespace u.reverse
  have hws : ∀ c ∈ (u.reverse.takeWhile Char.isWhitespace).reverse,
      c.isWhitespace := by
    intro c hc
    exact List.mem_takeWhile_imp (List.mem_reverse.mp hc)
  have hu2 : u = (u.reverse.dropWhile Char.isWhitespace).reverse ++
      (u.reverse.takeWhile Char.isWhitespace).reverse := by
    calc u = u.reverse.reverse := (List.reverse_reverse u).symm
    _ = (u.reverse.takeWhile Char.isWhitespace ++
          u.reverse.dropWhile Char.isWhitespace).reverse := by rw [hsplit]
    _ = (u.reverse.dropWhile Char.isWhitespace).reverse ++
          (u.reverse.takeWhile Char.isWhitespace).reverse := by
        rw [List.reverse_append]
  rw [← h1]
  conv_rhs => rw [hu2]
  exact (tokensAux_append_trailing_ws hws _ []).symm

theorem tokens_joinSp (L : List Str) :
    tokens (joinSp L) = (L.map tokens).flatten := by
  induction L with
  | nil => rfl
  | cons s ss ih =>
    cases ss with
    | nil => simp [joinSp, tokens]
    | cons s2 ss2 =>
      have hj : joinSp (s :: s2 :: ss2) = s ++ ' ' :: joinSp (s2 :: ss2) := rfl
      rw [hj, tokens_append_space, ih]
      simp

theorem flatten_map_tokens_filter (L : List Str) :
    (((L.filter fun t => decide (t ≠ [])).map tokens).flatten) =
      ((L.map tokens).flatten) := by
  induction L with
  | nil => rfl
  | cons s ss ih =>
    by_cases hs : s = []
    · subst hs
      simpa [List.filter_cons, tokens, tokensAux] using ih
    · simp only [ne_eq, decide_not] at ih
      simp [List.filter_cons, hs, ih]

/-!
## Characterization of one loop iteration

A successful `stepWord` is one of three things: the word is skipped, a block
is flushed, or text is accumulated without flushing.
-/

/-- The word's trimmed text is empty and the state is unchanged. -/
def StepSkip (st st' : LoopState) (w : Word) : Prop :=
  trimmed w = [] ∧ st' = st

/-- The word's text is appended and the threshold is met: a block is emitted
and the accumulator and times reset. -/
def StepFlush (mc : Nat) (st st' : LoopState) (w : Word) : Prop :=
  ∃ s e, trimmed w ≠ [] ∧ w.stop = some e ∧
    (if st.accumulated_text = [] then w.start else st.start_time) = some s ∧
    mc ≤ (newAcc st (trimmed w)).length ∧
    st' = ⟨st.subtitles ++ [⟨st.index, s, e, newAcc st (trimmed w)⟩],
           [], none, none, st.index + 1⟩

/-- The word's text is appended below the threshold: accumulator and times
update, nothing is emitted. -/
def StepAccum (mc : Nat) (st st' : LoopState) (w : Word) : Prop :=
  ∃ e, trimmed w ≠ [] ∧ w.stop = some e ∧
    (newAcc st (trimmed w)).length < mc ∧
    (st.accumulated_text = [] → w.start.isSome) ∧
    st' = ⟨st.subtitles, newAcc st (trimmed w),
           (if st.accumulated_text = [] then w.start else st.start_time),
           some e, st.index⟩

theorem stepWord_ok_cases {mc : Nat} {st st' : LoopState} {w : Word}
    (h : stepWord mc st w = Except.ok st') :
    StepSkip st st' w ∨ StepFlush mc st st' w ∨ StepAccum mc st st' w := by
  unfold stepWord at h
  split at h
  · rename_i ht
    exact Or.inl ⟨ht, (Except.ok.inj h).symm⟩
  · rename_i ht
    split at h
    · rename_i hacc
      split at h
      · exact absurd h (by simp)
      · rename_i s hs
        unfold accumulateWord at h
        split at h
        · exact absurd h (by simp)
        · rename_i e he
          split at h
          · rename_i hlen
            refine Or.inr (Or.inl ⟨s, e, ht, he, by simp [hacc, hs], hlen,
              (Except.ok.inj h).symm⟩)
          · rename_i hlen
            refine Or.inr (Or.inr ⟨e, ht, he, by omega,
              fun _ => by simp [hs], ?_⟩)
            rw [if_pos hacc, hs]
            exact (Except.ok.inj h).symm
    · rename_i hacc
      unfold accumulateWord at h
      split at h
      · exact absurd h (by simp)
      · rename_i e he
        split at h
        · rename_i hlen
          split at h
          · rename_i s hst
            refine Or.inr (Or.inl ⟨s, e, ht, he, by simp [hacc, hst], hlen,
              (Except.ok.inj h).symm⟩)
          · exact absurd h (by simp)
        · rename_i hlen
          refine Or.inr (Or.inr ⟨e, ht, he, by omega,
            fun hc => absurd hc hacc, ?_⟩)
          rw [if_neg hacc]
          exact (Except.ok.inj h).symm

/-!
## Loop invariants
-/

/-- Appending non-empty text always yields a non-empty accumulator. -/
theorem newAcc_ne_nil {st : LoopState} {text : Str} (ht : text ≠ []) :
    newAcc st text ≠ [] := by
  unfold newAcc
  split
  · simp
  · exact ht

/-- The loop records a block start time (and then an end time) exactly while
the accumulator is non-empty. -/
def TimeInv (st : LoopState) : Prop :=
  (st.accumulated_text = [] ↔ st.start_time = none) ∧
  (st.accumulated_text = [] ↔ st.end_time = none)

theorem stepWord_timeInv {mc : Nat} {st st' : LoopState} {w : Word}
    (h : stepWord mc st w = Except.ok st') (hI : TimeInv st) : TimeInv st' := by
  rcases stepWord_ok_cases h with ⟨-, rfl⟩ | ⟨s, e, ht, he, hst, hlen, rfl⟩ |
    ⟨e, ht, he, hlen, hstart, rfl⟩
  · exact hI
  · exact ⟨by simp [TimeInv], by simp [TimeInv]⟩
  · constructor
    · constructor
      · intro hc; exact absurd hc (newAcc_ne_nil ht)
      · intro hc
        by_cases hacc : st.accumulated_text = []
        · rw [if_pos hacc] at hc
          rw [Option.isSome_iff_exists] at hstart
          obtain ⟨x, hx⟩ := hstart hacc
          simp [hx] at hc
        · rw [if_neg hacc] at hc
          exact absurd (hI.1.mpr hc) hacc
    · constructor
      · intro hc; exact absurd hc (newAcc_ne_nil ht)
      · intro hc; simp at hc

/-- Every property preserved by each successful iteration is preserved by the
whole loop. -/
theorem processWords_preserve {mc : Nat} {P : LoopState → Prop}
    {ws : List Word} {st st' : LoopState}
    (hstep : ∀ s w s', w ∈ ws → stepWord mc s w = Except.ok s' → P s → P s')
    (h : processWords mc ws st = Except.ok st') (hP : P st) : P st' := by
  induction ws generalizing st with
  | nil =>
    unfold processWords at h
    rw [← Except.ok.inj h]; exact hP
  | cons w ws ih =>
    unfold processWords at h
    cases hw : stepWord mc st w with
    | error e => rw [hw] at h; cases h
    | ok st1 =>
      rw [hw] at h
      exact ih (fun s w' s' hm => hstep s w' s' (List.mem_cons_of_mem _ hm)) h
        (hstep st w st1 (List.mem_cons_self _ _) hw hP)

/-- A well-formed word (its `"start"`/`"end"` keys present) never makes the
loop body raise, provided the timing invariant holds. -/
theorem stepWord_progress (mc : Nat) (st : LoopState) (w : Word)
    (hI : TimeInv st) (hstart : w.start.isSome) (hstop : w.stop.isSome) :
    ∃ st', stepWord mc st w = Except.ok st' := by
  obtain ⟨s, hs⟩ := Option.isSome_iff_exists.mp hstart
  obtain ⟨e, he⟩ := Option.isSome_iff_exists.mp hstop
  by_cases ht : trimmed w = []
  · exact ⟨st, by simp [stepWord, ht]⟩
  · by_cases hacc : st.accumulated_text = []
    · unfold stepWord accumulateWord
      rw [if_neg ht, if_pos hacc, hs, he]
      by_cases hlen : (newAcc st (trimmed w)).length ≥ mc
      · exact ⟨_, by dsimp only; rw [if_pos hlen]⟩
      · exact ⟨_, by dsimp only; rw [if_neg hlen]⟩
    · obtain ⟨s0, hs0⟩ : ∃ s0, st.start_time = some s0 := by
        cases hq : st.start_time with
        | none => exact absurd (hI.1.mpr hq) hacc
        | some s0 => exact ⟨s0, rfl⟩
      unfold stepWord accumulateWord
      rw [if_neg ht, if_neg hacc, he, hs0]
      by_cases hlen : (newAcc st (trimmed w)).length ≥ mc
      · exact ⟨_, by dsimp only; rw [if_pos hlen]⟩
      · exact ⟨_, by dsimp only; rw [if_neg hlen]⟩

/-- A list of well-formed words never makes the loop raise. -/
theorem processWords_progress (mc : Nat) (ws : List Word) (st : LoopState)
    (hI : TimeInv st)
    (hwf : ∀ w ∈ ws, w.start.isSome ∧ w.stop.isSome) :
    ∃ st', processWords mc ws st = Except.ok st' := by
  induction ws generalizing st with
  | nil => exact ⟨st, rfl⟩
  | cons w ws ih =>
    obtain ⟨st1, h1⟩ := stepWord_progress mc st w hI
      (hwf w (List.mem_cons_self _ _)).1 (hwf w (List.mem_cons_self _ _)).2
    obtain ⟨st', h'⟩ := ih st1 (stepWord_timeInv h1 hI)
      (fun w' hm => hwf w' (List.mem_cons_of_mem _ hm))
    exact ⟨st', by unfold processWords; rw [h1]; exact h'⟩

/-- Indices of the emitted blocks are `base, base+1, ...` and the running
index is the next free one. -/
def IndexInv (base : Nat) (st : LoopState) : Prop :=
  st.subtitles.map Subtitle.index = List.range' base st.subtitles.length ∧
  st.index = base + st.subtitles.length

theorem stepWord_indexInv {mc base : Nat} {st st' : LoopState} {w : Word}
    (h : stepWord mc st w = Except.ok st') (hI : IndexInv base st) :
    IndexInv base st' := by
  rcases stepWord_ok_cases h with ⟨-, rfl⟩ | ⟨s, e, ht, he, hst, hlen, rfl⟩ |
    ⟨e, ht, he, hlen, hstart, rfl⟩
  · exact hI
  · obtain ⟨h1, h2⟩ := hI
    constructor
    · dsimp only
      rw [List.map_append, List.length_append, h1]
      simp [List.range'_1_concat, h2]
    · dsimp only
      rw [List.length_append, h2]
      simp only [List.length_singleton]
      omega
  · exact ⟨hI.1, hI.2⟩

/-- Every block flushed inside the loop meets the threshold. -/
theorem stepWord_threshold {mc : Nat} {st st' : LoopState} {w : Word}
    (h : stepWord mc st w = Except.ok st')
    (hP : ∀ b ∈ st.subtitles, mc ≤ b.content.length) :
    ∀ b ∈ st'.subtitles, mc ≤ b.content.length := by
  rcases stepWord_ok_cases h with ⟨-, rfl⟩ | ⟨s, e, ht, he, hst, hlen, rfl⟩ |
    ⟨e, ht, he, hlen, hstart, rfl⟩
  · exact hP
  · intro b hb
    rcases List.mem_append.mp hb with hb | hb
    · exact hP b hb
    · rw [List.mem_singleton.mp hb]
      exact hlen
  · exact hP

/-- Every block flushed inside the loop has non-empty content. -/
theorem stepWord_nonempty {mc : Nat} {st st' : LoopState} {w : Word}
    (h : stepWord mc st w = Except.ok st')
    (hP : ∀ b ∈ st.subtitles, b.content ≠ []) :
    ∀ b ∈ st'.subtitles, b.content ≠ [] := by
  rcases stepWord_ok_cases h with ⟨-, rfl⟩ | ⟨s, e, ht, he, hst, hlen, rfl⟩ |
    ⟨e, ht, he, hlen, hstart, rfl⟩
  · exact hP
  · intro b hb
    rcases List.mem_append.mp hb with hb | hb
    · exact hP b hb
    · rw [List.mem_singleton.mp hb]
      exact newAcc_ne_nil ht
  · exact hP

/-- Recorded block start times, and the pending `start_time`/`end_time`,
always come from actual words of the segment. -/
def ProvInv (ws : List Word) (st : LoopState) : Prop :=
  (∀ b ∈ st.subtitles, ∃ w ∈ ws, w.start = some b.start) ∧
  (∀ s, st.start_time = some s → ∃ w ∈ ws, w.start = some s) ∧
  (∀ e, st.end_time = some e → ∃ w ∈ ws, w.stop = some e)

theorem stepWord_prov {mc : Nat} {ws : List Word} {st st' : LoopState}
    {w : Word} (h : stepWord mc st w = Except.ok st') (hw : w ∈ ws)
    (hP : ProvInv ws st) : ProvInv ws st' := by
  rcases stepWord_ok_cases h with ⟨-, rfl⟩ | ⟨s, e, ht, he, hst, hlen, rfl⟩ |
    ⟨e, ht, he, hlen, hstart, rfl⟩
  · exact hP
  · refine ⟨?_, by simp, by simp⟩
    intro b hb
    rcases List.mem_append.mp hb with hb | hb
    · exact hP.1 b hb
    · rw [List.mem_singleton.mp hb]
      by_cases hacc : st.accumulated_text = []
      · rw [if_pos hacc] at hst
        exact ⟨w, hw, hst⟩
      · rw [if_neg hacc] at hst
        exact hP.2.1 s hst
  · refine ⟨hP.1, ?_, ?_⟩
    · intro s hs
      by_cases hacc : st.accumulated_text = []
      · rw [show LoopState.start_time ⟨st.subtitles, newAcc st (trimmed w),
          (if st.accumulated_text = [] then w.start else st.start_time),
          some e, st.index⟩ = (if st.accumulated_text = [] then w.start
            else st.start_time) from rfl, if_pos hacc] at hs
        exact ⟨w, hw, hs⟩
      · rw [show LoopState.start_time ⟨st.subtitles, newAcc st (trimmed w),
          (if st.accumulated_text = [] then w.start else st.start_time),
          some e, st.index⟩ = (if st.accumulated_text = [] then w.start
            else st.start_time) from rfl, if_neg hacc] at hs
        exact hP.2.1 s hs
    · intro e' he'
      rw [show LoopState.end_time ⟨st.subtitles, newAcc st (trimmed w),
        (if st.accumulated_text = [] then w.start else st.start_time),
        some e, st.index⟩ = some e from rfl] at he'
      rw [← Option.some.inj he', ← he]
      exact ⟨w, hw, rfl⟩

/-!
## Segment-level consequences
-/

/-- Successful runs of `_process_segment_with_words` factor through a final
loop state, with or without a trailing block. -/
theorem psww_cases {mc i i' : Nat} {seg : Segment} {ws : List Word}
    {blocks : List Subtitle} (hws : seg.words = some ws)
    (h : process_segment_with_words mc seg i = Except.ok (blocks, i')) :
    ∃ st, processWords mc ws ⟨[], [], none, none, i⟩ = Except.ok st ∧
      ((st.accumulated_text ≠ [] ∧
        blocks = st.subtitles ++ [⟨st.index, st.start_time.getD 0,
          st.end_time.getD 0, st.accumulated_text⟩] ∧ i' = st.index + 1) ∨
       (st.accumulated_text = [] ∧ blocks = st.subtitles ∧ i' = st.index)) := by
  unfold process_segment_with_words at h
  rw [hws] at h
  dsimp only at h
  cases hpw : processWords mc ws ⟨[], [], none, none, i⟩ with
  | error e => rw [hpw] at h; cases h
  | ok st =>
    rw [hpw] at h
    dsimp only at h
    refine ⟨st, rfl, ?_⟩
    split at h
    · rename_i hacc
      simp only [Except.ok.injEq, Prod.mk.injEq] at h
      exact Or.inl ⟨hacc, h.1.symm, h.2.symm⟩
    · rename_i hacc
      simp only [Except.ok.injEq, Prod.mk.injEq] at h
      exact Or.inr ⟨not_not.mp hacc, h.1.symm, h.2.symm⟩

/-- A successful `_process_segment_without_words` call reads the segment's
own fields. -/
theorem psws_ok {seg : Segment} {i : Nat} {b : Subtitle}
    (h : process_segment_without_words seg i = Except.ok b) :
    ∃ s e, seg.start = some s ∧ seg.stop = some e ∧
      b = ⟨i, s, e, strip (seg.text.getD [])⟩ := by
  unfold process_segment_without_words at h
  split at h
  · cases h
  · rename_i s hs
    split at h
    · cases h
    · rename_i e he
      exact ⟨s, e, hs, he, (Except.ok.inj h).symm⟩

/-- A word-level segment's blocks are indexed `i, i+1, ...` and the returned
next index is `i` plus the number of blocks. -/
theorem psww_index {mc i i' : Nat} {seg : Segment} {blocks : List Subtitle}
    (h : process_segment_with_words mc seg i = Except.ok (blocks, i')) :
    blocks.map Subtitle.index = List.range' i blocks.length ∧
      i' = i + blocks.length := by
  cases hws : seg.words with
  | none =>
    unfold process_segment_with_words at h
    rw [hws] at h
    cases h
  | some ws =>
    obtain ⟨st, hpw, hcase⟩ := psww_cases hws h
    have hI : IndexInv i st :=
      processWords_preserve (fun s w s' _ hs hP => stepWord_indexInv hs hP)
        hpw ⟨by simp, by simp⟩
    rcases hcase with ⟨hacc, rfl, rfl⟩ | ⟨hacc, rfl, rfl⟩
    · constructor
      · rw [List.map_append, List.length_append, hI.1]
        simp [List.range'_1_concat, hI.2]
      · rw [List.length_append, hI.2]
        simp only [List.length_singleton]
        omega
    · exact ⟨hI.1, hI.2⟩

/-- Index bookkeeping across the segment loop. -/
theorem processSegments_index {mc : Nat} :
    ∀ {segs : List Segment} {acc out : List Subtitle} {idx base : Nat},
    processSegments mc segs acc idx = Except.ok out →
    acc.map Subtitle.index = List.range' base acc.length →
    idx = base + acc.length →
    out.map Subtitle.index = List.range' base out.length := by
  intro segs
  induction segs with
  | nil =>
    intro acc out idx base h hmap hidx
    unfold processSegments at h
    rw [← Except.ok.inj h]
    exact hmap
  | cons seg rest ih =>
    intro acc out idx base h hmap hidx
    unfold processSegments at h
    split at h
    · cases hps : process_segment_with_words mc seg idx with
      | error e => rw [hps] at h; cases h
      | ok p =>
        obtain ⟨blocks, idx'⟩ := p
        rw [hps] at h
        obtain ⟨hbm, hbi⟩ := psww_index hps
        refine ih h ?_ ?_
        · rw [List.map_append, List.length_append, hmap, hbm, hidx]
          rw [List.range'_append_1]
          congr 1
          omega
        · rw [hbi, hidx, List.length_append]
          omega
    · cases hps : process_segment_without_words seg idx with
      | error e => rw [hps] at h; cases h
      | ok b =>
        rw [hps] at h
        obtain ⟨s, e, -, -, rfl⟩ := psws_ok hps
        refine ih h ?_ ?_
        · rw [List.map_append, List.length_append, hmap]
          simp [List.range'_1_concat, hidx]
        · rw [List.length_append, hidx]
          simp only [List.length_singleton]
          omega

/-!
## Claims
-/

/-- C1: For every transcription result, the indices of the blocks returned
by `process_transcription` form the contiguous sequence `1..N` with no gaps
or repeats, spanning across segment boundaries: the first block has index 1
and each subsequent block's index is the previous block's index plus 1,
regardless of how many blocks each segment contributed. -/
theorem index_continuity {min_chars : Nat} {result : TranscriptionResult}
    {subs : List Subtitle}
    (h : process_transcription min_chars result = Except.ok subs) :
    subs.map Subtitle.index = List.range' 1 subs.length ∧
    ∀ i (hi : i < subs.length), (subs.get ⟨i, hi⟩).index = i + 1 := by
  have hmap : subs.map Subtitle.index = List.range' 1 subs.length :=
    processSegments_index h (by simp) (by simp)
  refine ⟨hmap, ?_⟩
  intro i hi
  have hq : (subs.map Subtitle.index)[i]? = (List.range' 1 subs.length)[i]? := by
    rw [hmap]
  rw [List.getElem?_map, List.getElem?_range' 1 1 hi] at hq
  rw [List.getElem?_eq_getElem hi] at hq
  simp at hq
  have hg : subs.get ⟨i, hi⟩ = subs[i] := rfl
  rw [hg]
  omega

theorem index_continuity_witness :
    ([⟨1, 0, 1, "hi".data⟩, ⟨2, 2, 3, "yo".data⟩] : List Subtitle).map
        Subtitle.index =
      List.range' 1 ([⟨1, 0, 1, "hi".data⟩,
        ⟨2, 2, 3, "yo".data⟩] : List Subtitle).length :=
  (@index_continuity 10
    ⟨some [⟨none, some 0, some 1, some "hi".data⟩,
           ⟨none, some 2, some 3, some "yo".data⟩]⟩
    [⟨1, 0, 1, "hi".data⟩, ⟨2, 2, 3, "yo".data⟩] (by rfl)).1

/-- C2 (counterexample): the claim quantifies over every block emitted by
`process_transcription`, but a flat (no-words) segment's block bypasses the
`min_chars` check entirely.  Here the only segment is flat, so no block is
"the last block of a word-level segment", yet the single output block has
content length 2 < 10. -/
theorem threshold_counterexample :
    process_transcription 10 ⟨some [⟨none, some 0, some 1, some "hi".data⟩]⟩ =
      Except.ok [⟨1, 0, 1, "hi".data⟩] ∧
    ("hi".data).length < 10 ∧
    ∀ seg ∈ [(⟨none, some (0 : ℚ), some 1, some "hi".data⟩ : Segment)],
      seg.words = none :=
  ⟨by rfl, by decide, by decide⟩

/-- C2 (amended): every block emitted by the word-accumulation path
(`_process_segment_with_words`), except possibly the last block of that
segment's output, has content of character length at least `min_chars`
(the flush comparison is meets-or-exceeds, `>=`); blocks from the flat
pass-through are not subject to the threshold. -/
theorem threshold_word_segments {min_chars i i' : Nat} {seg : Segment}
    {blocks : List Subtitle}
    (h : process_segment_with_words min_chars seg i = Except.ok (blocks, i'))
    (j : Nat) (hj : j + 1 < blocks.length) :
    min_chars ≤ (blocks.get ⟨j, Nat.lt_of_succ_lt hj⟩).content.length := by
  cases hws : seg.words with
  | none =>
    unfold process_segment_with_words at h
    rw [hws] at h
    cases h
  | some ws =>
    obtain ⟨st, hpw, hcase⟩ := psww_cases hws h
    have hall : ∀ b ∈ st.subtitles, min_chars ≤ b.content.length :=
      processWords_preserve (fun s w s' _ hs hP => stepWord_threshold hs hP)
        hpw (by simp)
    rcases hcase with ⟨hacc, rfl, rfl⟩ | ⟨hacc, rfl, rfl⟩
    · have hjlt : j < st.subtitles.length := by
        have := hj
        rw [List.length_append, List.length_singleton] at this
        omega
      have hget : (st.subtitles ++ [(⟨st.index, st.start_time.getD 0,
          st.end_time.getD 0, st.accumulated_text⟩ : Subtitle)]).get
          ⟨j, Nat.lt_of_succ_lt hj⟩ = st.subtitles.get ⟨j, hjlt⟩ := by
        rw [List.get_eq_getElem, List.get_eq_getElem]
        exact List.getElem_append_left hjlt
      rw [hget]
      exact hall _ (List.get_mem _ _ _)
    · exact hall _ (List.get_mem _ _ _)

theorem threshold_word_segments_witness :
    2 ≤ (([⟨1, 0, 0.5, "Hi".data⟩, ⟨2, 0.5, 1, "there".data⟩,
      ⟨3, 1, 1.6, "friend".data⟩] : List Subtitle).get
        ⟨0, by decide⟩).content.length :=
  @threshold_word_segments 2 1 4
    ⟨some [⟨some "Hi".data, some 0, some 0.5⟩,
           ⟨some "there".data, some 0.5, some 1⟩,
           ⟨some "friend".data, some 1, some 1.6⟩], none, none, none⟩
    [⟨1, 0, 0.5, "Hi".data⟩, ⟨2, 0.5, 1, "there".data⟩,
     ⟨3, 1, 1.6, "friend".data⟩]
    (by rfl) 0 (by decide)

/-- C6 (counterexample): a flat segment whose text is whitespace-only
produces a block with empty content — the flat pass-through path performs no
filtering, so not every block returned by `process_transcription` has
non-empty content. -/
theorem nonempty_counterexample :
    process_transcription 10
        ⟨some [⟨none, some 0, some 1, some "   ".data⟩]⟩ =
      Except.ok [⟨1, 0, 1, []⟩] ∧
    ∃ b ∈ [(⟨1, 0, 1, []⟩ : Subtitle)], b.content = [] :=
  ⟨by rfl, ⟨⟨1, 0, 1, []⟩, by simp, rfl⟩⟩

/-- C6 (amended): every block emitted by the word-accumulation path has
non-empty content (empty/whitespace-only words are skipped), while a block
from the flat pass-through has exactly the segment's text after trimming,
which may be empty. -/
theorem content_nonempty_amended (min_chars i : Nat) (seg : Segment) :
    (∀ blocks i', process_segment_with_words min_chars seg i =
        Except.ok (blocks, i') → ∀ b ∈ blocks, b.content ≠ []) ∧
    (∀ b, process_segment_without_words seg i = Except.ok b →
      b.content = strip (seg.text.getD [])) := by
  constructor
  · intro blocks i' h b hb
    cases hws : seg.words with
    | none =>
      unfold process_segment_with_words at h
      rw [hws] at h
      cases h
    | some ws =>
      obtain ⟨st, hpw, hcase⟩ := psww_cases hws h
      have hall : ∀ b ∈ st.subtitles, b.content ≠ [] :=
        processWords_preserve (fun s w s' _ hs hP => stepWord_nonempty hs hP)
          hpw (by simp)
      rcases hcase with ⟨hacc, rfl, rfl⟩ | ⟨hacc, rfl, rfl⟩
      · rcases List.mem_append.mp hb with hb | hb
        · exact hall b hb
        · rw [List.mem_singleton.mp hb]
          exact hacc
      · exact hall b hb
  · intro b h
    obtain ⟨s, e, -, -, rfl⟩ := psws_ok h
    rfl

theorem content_nonempty_amended_witness :
    (⟨1, 0, 1, "hello".data⟩ : Subtitle).content ≠ [] :=
  (content_nonempty_amended 3 1
      ⟨some [⟨some "hello".data, some 0, some 1⟩], none, none, none⟩).1
    [⟨1, 0, 1, "hello".data⟩] 2 (by rfl) ⟨1, 0, 1, "hello".data⟩ (by simp)

/-- C4: Scenario A and Scenario B of the spec, computed on the embedding.
With `min_chars = 10` the three words produce one block
`{1, 0.0, 1.6, "Hi there friend"}`; with `min_chars = 2` they produce three
blocks `{1, 0.0, 0.5, "Hi"}`, `{2, 0.5, 1.0, "there"}`,
`{3, 1.0, 1.6, "friend"}`. -/
theorem scenario_word_grouping :
    process_segment_with_words 10
        ⟨some [⟨some "Hi".data, some 0, some 0.5⟩,
               ⟨some "there".data, some 0.5, some 1⟩,
               ⟨some "friend".data, some 1, some 1.6⟩], none, none, none⟩ 1 =
      Except.ok ([⟨1, 0, 1.6, "Hi there friend".data⟩], 2) ∧
    process_segment_with_words 2
        ⟨some [⟨some "Hi".data, some 0, some 0.5⟩,
               ⟨some "there".data, some 0.5, some 1⟩,
               ⟨some "friend".data, some 1, some 1.6⟩], none, none, none⟩ 1 =
      Except.ok ([⟨1, 0, 0.5, "Hi".data⟩, ⟨2, 0.5, 1, "there".data⟩,
                  ⟨3, 1, 1.6, "friend".data⟩], 4) :=
  ⟨by rfl, by rfl⟩

/-- A word whose trimmed text is empty leaves the loop state unchanged. -/
theorem stepWord_skip {mc : Nat} {w : Word} (hw : trimmed w = [])
    (st : LoopState) : stepWord mc st w = Except.ok st := by
  unfold stepWord
  rw [if_pos hw]

/-- Unfolding equation of `processWords` on a cons cell. -/
theorem processWords_cons (mc : Nat) (w : Word) (ws : List Word)
    (st : LoopState) :
    processWords mc (w :: ws) st =
      match stepWord mc st w with
      | Except.error e => Except.error e
      | Except.ok st' => processWords mc ws st' := rfl

/-- Removing a skipped word from anywhere in the list does not change the
loop's result. -/
theorem processWords_skip {mc : Nat} {w : Word} (hw : trimmed w = [])
    (ws1 ws2 : List Word) (st : LoopState) :
    processWords mc (ws1 ++ w :: ws2) st = processWords mc (ws1 ++ ws2) st := by
  induction ws1 generalizing st with
  | nil =>
    show processWords mc (w :: ws2) st = processWords mc ws2 st
    rw [processWords_cons, stepWord_skip hw]
  | cons a ws1 ih =>
    show processWords mc (a :: (ws1 ++ w :: ws2)) st =
      processWords mc (a :: (ws1 ++ ws2)) st
    rw [processWords_cons, processWords_cons]
    cases ha : stepWord mc st a with
    | error e => rfl
    | ok st1 => exact ih st1

/-- C7: a word whose trimmed text is empty is skipped entirely: it
contributes no characters, does not set a block's start time and does not
update a block's end time — the segment's output is identical to processing
the same segment with that word removed. -/
theorem empty_word_removal {min_chars i : Nat} {seg : Segment}
    {ws1 ws2 : List Word} {w : Word} (hw : trimmed w = [])
    (hseg : seg.words = some (ws1 ++ w :: ws2)) :
    process_segment_with_words min_chars seg i =
      process_segment_with_words min_chars
        { seg with words := some (ws1 ++ ws2) } i := by
  unfold process_segment_with_words
  rw [hseg]
  dsimp only
  rw [processWords_skip hw]

theorem empty_word_removal_witness :
    process_segment_with_words 10
        ⟨some [⟨some "  ".data, some 0, some 1⟩], none, none, none⟩ 1 =
      process_segment_with_words 10 ⟨some [], none, none, none⟩ 1 :=
  @empty_word_removal 10 1
    ⟨some [⟨some "  ".data, some 0, some 1⟩], none, none, none⟩
    [] [] ⟨some "  ".data, some 0, some 1⟩ (by rfl) (by rfl)

/-- A list of words that are all skipped leaves the loop state unchanged. -/
theorem processWords_all_skip {mc : Nat} {ws : List Word}
    (hws : ∀ w ∈ ws, trimmed w = []) (st : LoopState) :
    processWords mc ws st = Except.ok st := by
  induction ws with
  | nil => rfl
  | cons w ws ih =>
    unfold processWords
    rw [stepWord_skip (hws w (List.mem_cons_self _ _))]
    exact ih fun w' hm => hws w' (List.mem_cons_of_mem _ hm)

/-- C9: dispatch is decided solely by the presence of the `"words"` key.
A segment whose `words` list is present but contains no usable word (empty
list or whitespace-only words) goes through the word path and produces zero
blocks with the index unchanged; the helper ignores the segment-level
`start`/`end`/`text` fields entirely; and in the segment loop such a segment
is a no-op, so the flat path never runs for it. -/
theorem words_key_dispatch {min_chars i : Nat} {seg seg' : Segment}
    {ws : List Word} (hws : seg.words = some ws)
    (hempty : ∀ w ∈ ws, trimmed w = [])
    (hsame : seg'.words = seg.words) :
    process_segment_with_words min_chars seg i = Except.ok ([], i) ∧
    process_segment_with_words min_chars seg' i =
      process_segment_with_words min_chars seg i ∧
    ∀ rest subs, processSegments min_chars (seg :: rest) subs i =
      processSegments min_chars rest subs i := by
  have hseg : process_segment_with_words min_chars seg i = Except.ok ([], i) := by
    unfold process_segment_with_words
    rw [hws]
    dsimp only
    rw [processWords_all_skip hempty]
    rfl
  refine ⟨hseg, ?_, ?_⟩
  · unfold process_segment_with_words
    rw [hsame]
  · intro rest subs
    show (if seg.words.isSome then _ else _) = _
    rw [if_pos (by rw [hws]; rfl)]
    rw [hseg]
    dsimp only
    rw [List.append_nil]

theorem words_key_dispatch_witness :
    process_segment_with_words 5
        ⟨some [], some 0, some 1, some "ignored".data⟩ 1 =
      Except.ok ([], 1) :=
  (@words_key_dispatch 5 1 ⟨some [], some 0, some 1, some "ignored".data⟩
    ⟨some [], some 0, some 1, some "ignored".data⟩ [] (by rfl)
    (by simp) (by rfl)).1

/-- Well-formedness assumed of the transcription provider: every word of a
word-level segment carries `"start"` and `"end"`, and every flat segment
carries `"start"` and `"end"`. -/
def segWF (seg : Segment) : Prop :=
  match seg.words with
  | some ws => ∀ w ∈ ws, w.start.isSome ∧ w.stop.isSome
  | none => seg.start.isSome ∧ seg.stop.isSome

/-- A well-formed word-level segment is processed without error. -/
theorem psww_progress (mc i : Nat) {seg : Segment} {ws : List Word}
    (hws : seg.words = some ws)
    (hwf : ∀ w ∈ ws, w.start.isSome ∧ w.stop.isSome) :
    ∃ blocks i', process_segment_with_words mc seg i =
      Except.ok (blocks, i') := by
  obtain ⟨st, hpw⟩ := processWords_progress mc ws ⟨[], [], none, none, i⟩
    (by constructor <;> simp) hwf
  unfold process_segment_with_words
  rw [hws]
  dsimp only
  rw [hpw]
  dsimp only
  by_cases hacc : st.accumulated_text ≠ []
  · rw [if_pos hacc]
    exact ⟨_, _, rfl⟩
  · rw [if_neg hacc]
    exact ⟨_, _, rfl⟩

/-- A well-formed flat segment is processed without error. -/
theorem psws_progress (i : Nat) {seg : Segment}
    (hs : seg.start.isSome) (he : seg.stop.isSome) :
    ∃ b, process_segment_without_words seg i = Except.ok b := by
  obtain ⟨s, hs'⟩ := Option.isSome_iff_exists.mp hs
  obtain ⟨e, he'⟩ := Option.isSome_iff_exists.mp he
  unfold process_segment_without_words
  rw [hs', he']
  exact ⟨_, rfl⟩

/-- The segment loop completes on well-formed segments. -/
theorem processSegments_progress (mc : Nat) :
    ∀ {segs : List Segment}, (∀ seg ∈ segs, segWF seg) →
    ∀ subs idx, ∃ out, processSegments mc segs subs idx = Except.ok out := by
  intro segs
  induction segs with
  | nil => exact fun _ subs idx => ⟨subs, rfl⟩
  | cons seg rest ih =>
    intro hwf subs idx
    have hseg : segWF seg := hwf seg (List.mem_cons_self _ _)
    have hrest : ∀ s ∈ rest, segWF s :=
      fun s hm => hwf s (List.mem_cons_of_mem _ hm)
    unfold processSegments
    cases hws : seg.words with
    | some ws =>
      rw [if_pos (by rfl)]
      have hwords : ∀ w ∈ ws, w.start.isSome ∧ w.stop.isSome := by
        have := hseg
        unfold segWF at this
        rw [hws] at this
        exact this
      obtain ⟨blocks, i', hps⟩ := psww_progress mc idx hws hwords
      rw [hps]
      exact ih hrest (subs ++ blocks) i'
    | none =>
      rw [if_neg (by simp)]
      have hflat : seg.start.isSome ∧ seg.stop.isSome := by
        have := hseg
        unfold segWF at this
        rw [hws] at this
        exact this
      obtain ⟨b, hps⟩ := psws_progress idx hflat.1 hflat.2
      rw [hps]
      exact ih hrest (subs ++ [b]) (idx + 1)

/-- C8: on a transcription result whose segments are all well-formed,
`process_transcription` completes and returns a list without raising; on an
input where a required field is missing on a word that is actually used
(here the first word's `"start"`), a generic field-access failure propagates
and no result is returned. -/
theorem process_transcription_total (min_chars : Nat)
    (result : TranscriptionResult) :
    ((∀ seg ∈ result.segments.getD [], segWF seg) →
      ∃ subs, process_transcription min_chars result = Except.ok subs) ∧
    process_transcription min_chars
        ⟨some [⟨some [⟨some "hello".data, none, some 1⟩],
          none, none, none⟩]⟩ =
      Except.error "KeyError: start" := by
  constructor
  · intro hwf
    exact processSegments_progress min_chars hwf [] 1
  · rfl

theorem process_transcription_total_witness :
    ∃ subs, process_transcription 10
      ⟨some [⟨none, some 0, some 1, some "hi".data⟩]⟩ = Except.ok subs :=
  (process_transcription_total 10
    ⟨some [⟨none, some 0, some 1, some "hi".data⟩]⟩).1 (by
      intro seg hm
      simp only [Option.getD, List.mem_singleton] at hm
      rw [hm]
      unfold segWF
      exact ⟨rfl, rfl⟩)

/-- C10: at the end of the accumulation loop the invariant holds that the
accumulator is non-empty iff a block start time has been recorded (and then
an end time has been recorded too); consequently, whenever the trailing
branch of `_process_segment_with_words` runs, `start_time`/`end_time` are
`some`, the `getD 0` zero-duration fallbacks are dead code, and the trailing
block's start and end times are recorded times of actual words of the
segment.  (`stepWord_timeInv` is the per-iteration form of the invariant.) -/
theorem trailing_fallback_unreachable {min_chars i i' : Nat} {seg : Segment}
    {ws : List Word} {blocks : List Subtitle} (hws : seg.words = some ws)
    (h : process_segment_with_words min_chars seg i =
      Except.ok (blocks, i')) :
    ∃ st, processWords min_chars ws ⟨[], [], none, none, i⟩ = Except.ok st ∧
      ((st.accumulated_text = [] ↔ st.start_time = none) ∧
       (st.accumulated_text = [] ↔ st.end_time = none)) ∧
      (st.accumulated_text ≠ [] →
        ∃ s e, st.start_time = some s ∧ st.end_time = some e ∧
          blocks = st.subtitles ++ [⟨st.index, s, e, st.accumulated_text⟩] ∧
          (∃ w ∈ ws, w.start = some s) ∧ (∃ w ∈ ws, w.stop = some e)) := by
  obtain ⟨st, hpw, hcase⟩ := psww_cases hws h
  have hT : TimeInv st :=
    processWords_preserve (fun s w s' _ hs hP => stepWord_timeInv hs hP) hpw
      (by constructor <;> simp)
  have hP : ProvInv ws st :=
    processWords_preserve (fun s w s' hm hs hP => stepWord_prov hs hm hP) hpw
      ⟨by simp, by simp, by simp⟩
  refine ⟨st, hpw, ⟨hT.1, hT.2⟩, ?_⟩
  intro hacc
  obtain ⟨s, hs⟩ : ∃ s, st.start_time = some s := by
    cases hq : st.start_time with
    | none => exact absurd (hT.1.mpr hq) hacc
    | some s => exact ⟨s, rfl⟩
  obtain ⟨e, he⟩ : ∃ e, st.end_time = some e := by
    cases hq : st.end_time with
    | none => exact absurd (hT.2.mpr hq) hacc
    | some e => exact ⟨e, rfl⟩
  rcases hcase with ⟨-, rfl, -⟩ | ⟨hacc', -, -⟩
  · refine ⟨s, e, hs, he, ?_, hP.2.1 s hs, hP.2.2 e he⟩
    rw [hs, he]
    rfl
  · exact absurd hacc' hacc

theorem trailing_fallback_unreachable_witness :
    ∃ st, processWords 10 [⟨some "hi".data, some 3, some 4⟩]
        ⟨[], [], none, none, 1⟩ = Except.ok st ∧
      ((st.accumulated_text = [] ↔ st.start_time = none) ∧
       (st.accumulated_text = [] ↔ st.end_time = none)) ∧
      (st.accumulated_text ≠ [] →
        ∃ s e, st.start_time = some s ∧ st.end_time = some e ∧
          [(⟨1, 3, 4, "hi".data⟩ : Subtitle)] =
            st.subtitles ++ [⟨st.index, s, e, st.accumulated_text⟩] ∧
          (∃ w ∈ [(⟨some "hi".data, some 3, some 4⟩ : Word)],
            w.start = some s) ∧
          (∃ w ∈ [(⟨some "hi".data, some 3, some 4⟩ : Word)],
            w.stop = some e)) :=
  @trailing_fallback_unreachable 10 1 2
    ⟨some [⟨some "hi".data, some 3, some 4⟩], none, none, none⟩
    [⟨some "hi".data, some 3, some 4⟩] [⟨1, 3, 4, "hi".data⟩]
    (by rfl) (by rfl)

/-!
## Monotonic timing
-/

/-- Sortedness invariant: recorded block start times are pairwise
non-decreasing, and the pending `start_time` bounds them all from above. -/
def SortInv (st : LoopState) : Prop :=
  (st.subtitles.map Subtitle.start).Pairwise (· ≤ ·) ∧
  (∀ b ∈ st.subtitles, ∀ x, st.start_time = some x → b.start ≤ x)

/-- `w`'s recorded start (if any) bounds everything recorded so far. -/
def WBound (st : LoopState) (w : Word) : Prop :=
  (∀ b ∈ st.subtitles, ∀ y, w.start = some y → b.start ≤ y) ∧
  (∀ x y, st.start_time = some x → w.start = some y → x ≤ y)

theorem stepWord_sort {mc : Nat} {st st' : LoopState} {w : Word}
    (h : stepWord mc st w = Except.ok st') (hS : SortInv st)
    (hB : WBound st w) :
    SortInv st' ∧ ∀ w2 : Word,
      (∀ x y, w.start = some x → w2.start = some y → x ≤ y) →
      WBound st w2 → WBound st' w2 := by
  rcases stepWord_ok_cases h with ⟨-, rfl⟩ | ⟨s, e, ht, he, hst, hlen, rfl⟩ |
    ⟨e, ht, he, hlen, hstart, rfl⟩
  · exact ⟨hS, fun w2 _ hB2 => hB2⟩
  · have hble : ∀ b ∈ st.subtitles, b.start ≤ s := by
      intro b hb
      by_cases hacc : st.accumulated_text = []
      · rw [if_pos hacc] at hst
        exact hB.1 b hb s hst
      · rw [if_neg hacc] at hst
        exact hS.2 b hb s hst
    constructor
    · constructor
      · dsimp only
        rw [List.map_append]
        rw [List.pairwise_append]
        refine ⟨hS.1, by simp, ?_⟩
        intro x hx y hy
        simp only [List.map_cons, List.map_nil, List.mem_singleton] at hy
        obtain ⟨b, hb, rfl⟩ := List.mem_map.mp hx
        rw [hy]
        exact hble b hb
      · intro b hb x hx
        cases hx
    · intro w2 hw2 hB2
      constructor
      · intro b hb y hy
        rcases List.mem_append.mp hb with hb | hb
        · exact hB2.1 b hb y hy
        · rw [List.mem_singleton.mp hb]
          by_cases hacc : st.accumulated_text = []
          · rw [if_pos hacc] at hst
            exact hw2 s y hst hy
          · rw [if_neg hacc] at hst
            exact hB2.2 s y hst hy
      · intro x y hx
        cases hx
  · constructor
    · constructor
      · exact hS.1
      · intro b hb x hx
        dsimp only at hx
        by_cases hacc : st.accumulated_text = []
        · rw [if_pos hacc] at hx
          exact hB.1 b hb x hx
        · rw [if_neg hacc] at hx
          exact hS.2 b hb x hx
    · intro w2 hw2 hB2
      constructor
      · exact hB2.1
      · intro x y hx hy
        dsimp only at hx
        by_cases hacc : st.accumulated_text = []
        · rw [if_pos hacc] at hx
          exact hw2 x y hx hy
        · rw [if_neg hacc] at hx
          exact hB2.2 x y hx hy

/-- Through the whole loop: if the words' recorded start times are pairwise
non-decreasing, the recorded block start times stay sorted. -/
theorem processWords_sort {mc : Nat} :
    ∀ {ws : List Word} {st st' : LoopState},
    processWords mc ws st = Except.ok st' → SortInv st →
    (∀ w ∈ ws, WBound st w) →
    ws.Pairwise (fun a b => ∀ x y, a.start = some x → b.start = some y →
      x ≤ y) →
    SortInv st' := by
  intro ws
  induction ws with
  | nil =>
    intro st st' h hS _ _
    unfold processWords at h
    rw [← Except.ok.inj h]
    exact hS
  | cons w ws ih =>
    intro st st' h hS hB hPair
    rw [processWords_cons] at h
    cases hw : stepWord mc st w with
    | error e => rw [hw] at h; cases h
    | ok st1 =>
      rw [hw] at h
      obtain ⟨hS1, htrans⟩ := stepWord_sort hw hS (hB w (List.mem_cons_self _ _))
      obtain ⟨hhead, htail⟩ := List.pairwise_cons.mp hPair
      exact ih h hS1
        (fun w2 hm => htrans w2 (hhead w2 hm) (hB w2 (List.mem_cons_of_mem _ hm)))
        htail

/-- C5 (counterexample): with word start times out of order, consecutive
blocks of a single word-level segment get strictly decreasing start times,
so the claim's unconditional monotonicity fails on the code. -/
theorem monotonic_starts_counterexample :
    process_segment_with_words 2
        ⟨some [⟨some "aa".data, some 5, some 6⟩,
               ⟨some "bb".data, some 1, some 2⟩], none, none, none⟩ 1 =
      Except.ok ([⟨1, 5, 6, "aa".data⟩, ⟨2, 1, 2, "bb".data⟩], 3) ∧
    ([⟨1, 5, 6, "aa".data⟩, ⟨2, 1, 2, "bb".data⟩] : List Subtitle).map
        Subtitle.start = [5, 1] ∧
    ¬ ((5 : ℚ) ≤ 1) :=
  ⟨by rfl, by rfl, by norm_num⟩

/-- C5 (amended): if the recorded start times of the segment's words are
non-decreasing in word order, then the start times of the blocks emitted for
that word-level segment are non-decreasing; and unconditionally, every
emitted block's start time equals the recorded start time of some word of
the segment. -/
theorem monotonic_starts {min_chars i i' : Nat} {seg : Segment}
    {ws : List Word} {blocks : List Subtitle} (hws : seg.words = some ws)
    (h : process_segment_with_words min_chars seg i =
      Except.ok (blocks, i')) :
    (ws.Pairwise (fun a b => ∀ x y, a.start = some x →
        b.start = some y → x ≤ y) →
      (blocks.map Subtitle.start).Pairwise (· ≤ ·)) ∧
    ∀ b ∈ blocks, ∃ w ∈ ws, w.start = some b.start := by
  obtain ⟨st, hpw, hcase⟩ := psww_cases hws h
  have hT : TimeInv st :=
    processWords_preserve (fun s w s' _ hs hP => stepWord_timeInv hs hP) hpw
      (by constructor <;> simp)
  have hP : ProvInv ws st :=
    processWords_preserve (fun s w s' hm hs hP => stepWord_prov hs hm hP) hpw
      ⟨by simp, by simp, by simp⟩
  constructor
  · intro hmono
    have hS : SortInv st :=
      processWords_sort hpw ⟨by simp, by simp⟩
        (fun w _ => ⟨by simp, by simp⟩) hmono
    rcases hcase with ⟨hacc, rfl, -⟩ | ⟨hacc, rfl, -⟩
    · obtain ⟨s, hs⟩ : ∃ s, st.start_time = some s := by
        cases hq : st.start_time with
        | none => exact absurd (hT.1.mpr hq) hacc
        | some s => exact ⟨s, rfl⟩
      rw [List.map_append, List.pairwise_append]
      refine ⟨hS.1, by simp, ?_⟩
      intro x hx y hy
      simp only [List.map_cons, List.map_nil, List.mem_singleton] at hy
      obtain ⟨b, hb, rfl⟩ := List.mem_map.mp hx
      rw [hy]
      simp only [hs, Option.getD_some]
      exact hS.2 b hb s hs
    · exact hS.1
  · intro b hb
    rcases hcase with ⟨hacc, rfl, -⟩ | ⟨hacc, rfl, -⟩
    · obtain ⟨s, hs⟩ : ∃ s, st.start_time = some s := by
        cases hq : st.start_time with
        | none => exact absurd (hT.1.mpr hq) hacc
        | some s => exact ⟨s, rfl⟩
      rcases List.mem_append.mp hb with hb | hb
      · exact hP.1 b hb
      · rw [List.mem_singleton.mp hb]
        simp only [hs, Option.getD_some]
        exact hP.2.1 s hs
    · exact hP.1 b hb

theorem monotonic_starts_witness :
    (([(⟨some "hello".data, some 2, some 3⟩ : Word)] : List Word).Pairwise
        (fun a b => ∀ x y, a.start = some x → b.start = some y → x ≤ y) →
      (([⟨1, 2, 3, "hello".data⟩] : List Subtitle).map
        Subtitle.start).Pairwise (· ≤ ·)) ∧
    ∀ b ∈ ([⟨1, 2, 3, "hello".data⟩] : List Subtitle),
      ∃ w ∈ [(⟨some "hello".data, some 2, some 3⟩ : Word)],
        w.start = some b.start :=
  @monotonic_starts 3 1 2
    ⟨some [⟨some "hello".data, some 2, some 3⟩], none, none, none⟩
    [⟨some "hello".data, some 2, some 3⟩]
    [⟨1, 2, 3, "hello".data⟩]
    (by rfl) (by rfl)

/-!
## Content non-loss
-/

/-- The in-order source texts of a transcription result, per the claim: for
a word-level segment, the trimmed texts of its words whose trimmed text is
non-empty; for a flat segment, the segment's text. -/
def src_texts : List Segment → List Str
  | [] => []
  | seg :: rest =>
    (match seg.words with
     | some ws => (ws.map trimmed).filter fun t => decide (t ≠ [])
     | none => [seg.text.getD []]) ++ src_texts rest

/-- Appending a word's text to the accumulator concatenates their token
lists. -/
theorem tokens_newAcc (st : LoopState) (t : Str) :
    tokens (newAcc st t) = tokens st.accumulated_text ++ tokens t := by
  unfold newAcc
  split
  · exact tokens_append_space _ _
  · rename_i hacc
    rw [not_not.mp hacc]
    rfl

/-- The empty string has no tokens. -/
theorem tokens_nil : tokens ([] : Str) = [] := rfl

/-- Unfolding equation of `src_texts` on a cons cell. -/
theorem src_texts_cons (seg : Segment) (rest : List Segment) :
    src_texts (seg :: rest) =
      (match seg.words with
       | some ws => (ws.map trimmed).filter fun t => decide (t ≠ [])
       | none => [seg.text.getD []]) ++ src_texts rest := rfl

/-- One successful iteration appends the word's tokens to the tokens
produced so far (flushed blocks plus pending accumulator). -/
theorem stepWord_ctok {mc : Nat} {st st' : LoopState} {w : Word}
    (h : stepWord mc st w = Except.ok st') :
    ((st'.subtitles.map Subtitle.content).map tokens).flatten ++
        tokens st'.accumulated_text =
      (((st.subtitles.map Subtitle.content).map tokens).flatten ++
        tokens st.accumulated_text) ++ tokens (trimmed w) := by
  rcases stepWord_ok_cases h with ⟨ht, rfl⟩ | ⟨s, e, ht, he, hst, hlen, rfl⟩ |
    ⟨e, ht, he, hlen, hstart, rfl⟩
  · rw [ht, tokens_nil, List.append_nil]
  · dsimp only
    rw [List.map_append, List.map_append, List.flatten_append]
    simp only [List.map_cons, List.map_nil, List.flatten_cons,
      List.flatten_nil]
    rw [tokens_newAcc, tokens_nil]
    simp [List.append_assoc]
  · dsimp only
    rw [tokens_newAcc, List.append_assoc]

/-- The loop appends, in order, the tokens of every word's trimmed text. -/
theorem processWords_ctok {mc : Nat} :
    ∀ {ws : List Word} {st st' : LoopState},
    processWords mc ws st = Except.ok st' →
    ((st'.subtitles.map Subtitle.content).map tokens).flatten ++
        tokens st'.accumulated_text =
      (((st.subtitles.map Subtitle.content).map tokens).flatten ++
        tokens st.accumulated_text) ++
        ((ws.map fun w => tokens (trimmed w)).flatten) := by
  intro ws
  induction ws with
  | nil =>
    intro st st' h
    unfold processWords at h
    rw [← Except.ok.inj h]
    simp
  | cons w ws ih =>
    intro st st' h
    rw [processWords_cons] at h
    cases hw : stepWord mc st w with
    | error e => rw [hw] at h; cases h
    | ok st1 =>
      rw [hw] at h
      rw [ih h, stepWord_ctok hw]
      simp [List.append_assoc]

/-- A word-level segment's output blocks carry exactly the tokens of its
non-empty trimmed word texts, in order. -/
theorem psww_ctok {mc i i' : Nat} {seg : Segment} {ws : List Word}
    {blocks : List Subtitle} (hws : seg.words = some ws)
    (h : process_segment_with_words mc seg i = Except.ok (blocks, i')) :
    ((blocks.map Subtitle.content).map tokens).flatten =
      ((((ws.map trimmed).filter fun t => decide (t ≠ [])).map
        tokens).flatten) := by
  obtain ⟨st, hpw, hcase⟩ := psww_cases hws h
  have hct := processWords_ctok hpw
  simp only [List.map_nil, List.flatten_nil, tokens_nil, List.nil_append,
    List.append_nil] at hct
  rw [flatten_map_tokens_filter]
  rw [show ((ws.map trimmed).map tokens) = ws.map fun w => tokens (trimmed w)
    from by rw [List.map_map]; rfl]
  rcases hcase with ⟨hacc, rfl, rfl⟩ | ⟨hacc, rfl, rfl⟩
  · rw [List.map_append, List.map_append, List.flatten_append]
    simp only [List.map_cons, List.map_nil, List.flatten_cons,
      List.flatten_nil]
    rw [List.append_nil]
    exact hct
  · rw [← hct, hacc, tokens_nil, List.append_nil]

/-- The segment loop appends, in order, the tokens of every segment's
source texts. -/
theorem processSegments_ctok {mc : Nat} :
    ∀ {segs : List Segment} {acc out : List Subtitle} {idx : Nat},
    processSegments mc segs acc idx = Except.ok out →
    ((out.map Subtitle.content).map tokens).flatten =
      ((acc.map Subtitle.content).map tokens).flatten ++
        ((src_texts segs).map tokens).flatten := by
  intro segs
  induction segs with
  | nil =>
    intro acc out idx h
    unfold processSegments at h
    rw [← Except.ok.inj h]
    simp [src_texts]
  | cons seg rest ih =>
    intro acc out idx h
    unfold processSegments at h
    split at h
    · rename_i hsome
      obtain ⟨ws, hws⟩ := Option.isSome_iff_exists.mp hsome
      cases hps : process_segment_with_words mc seg idx with
      | error e => rw [hps] at h; cases h
      | ok p =>
        obtain ⟨blocks, idx'⟩ := p
        rw [hps] at h
        have hseg := psww_ctok hws hps
        rw [ih h]
        rw [List.map_append, List.map_append, List.flatten_append, hseg]
        rw [src_texts_cons, hws]
        dsimp only
        rw [List.map_append, List.flatten_append, List.append_assoc]
    · cases hps : process_segment_without_words seg idx with
      | error e => rw [hps] at h; cases h
      | ok b =>
        rw [hps] at h
        have hnone : seg.words = none := by
          rename_i hcond
          cases hq : seg.words with
          | none => rfl
          | some ws => rw [hq] at hcond; exact absurd rfl hcond
        obtain ⟨s, e, -, -, rfl⟩ := psws_ok hps
        rw [ih h]
        rw [List.map_append, List.map_append, List.flatten_append]
        rw [src_texts_cons, hnone]
        dsimp only
        rw [List.map_append, List.flatten_append, List.append_assoc]
        congr 2
        simp only [List.map_cons, List.map_nil, List.flatten_cons,
          List.flatten_nil]
        rw [tokens_strip]

/-- C3: joining the contents of all output blocks in order with single
spaces equals, modulo whitespace normalization (`tokens`), the in-order
space-joined concatenation of all words whose trimmed text is non-empty
(for word-level segments) and of each flat segment's text (for flat
segments): no text is lost or reordered by the grouping pass. -/
theorem content_non_loss {min_chars : Nat} {result : TranscriptionResult}
    {subs : List Subtitle}
    (h : process_transcription min_chars result = Except.ok subs) :
    tokens (joinSp (subs.map Subtitle.content)) =
      tokens (joinSp (src_texts (result.segments.getD []))) := by
  rw [tokens_joinSp, tokens_joinSp]
  have hc := processSegments_ctok h
  simpa using hc

theorem content_non_loss_witness :
    tokens (joinSp (([⟨1, 0, 1, "Hi there".data⟩,
        ⟨2, 2, 3, "Bye  now".data⟩] : List Subtitle).map
          Subtitle.content)) =
      tokens (joinSp (src_texts
        [⟨some [⟨some "Hi".data, some 0, some 0.5⟩,
                ⟨some "there".data, some 0.5, some 1⟩], none, none, none⟩,
         ⟨none, some 2, some 3, some " Bye  now ".data⟩])) :=
  @content_non_loss 4
    ⟨some [⟨some [⟨some "Hi".data, some 0, some 0.5⟩,
                  ⟨some "there".data, some 0.5, some 1⟩],
            none, none, none⟩,
           ⟨none, some 2, some 3, some " Bye  now ".data⟩]⟩
    [⟨1, 0, 1, "Hi there".data⟩, ⟨2, 2, 3, "Bye  now".data⟩] (by rfl)
